import Mathlib

/-!
Verification of the dictation comparison core (utils module):
tokenizer/normalizer, LCS-based word diff with fuzzy proper-noun
matching, and accuracy scoring.  Definitions are shallow embeddings of
the TypeScript source (`calculateDiff`, `calculateAccuracy`,
`getLevenshteinDistance`, `getLetterAccuracy`, `tokenize`, `cleanWord`).
Strings are modelled as lists of characters; JS numbers occurring in the
similarity/accuracy computations are modelled as exact rationals.
Recursive computations are written with an explicit fuel argument (with
fuel-insensitivity lemmas) so that every definition is structurally
recursive and kernel-computable.
-/

namespace Dictation

/-- Words and texts are lists of characters. -/
abbrev Str := List Char

/-- JS `\s` (the whitespace class used by `tokenize`'s `/\s+/` split),
restricted to the ASCII whitespace characters. -/
def isSpaceChar (c : Char) : Bool :=
  c = ' ' || c = '\t' || c = '\n' || c = '\r' || c = '\x0b' || c = '\x0c'

/-- Helper for `tokenize`: splits a character list on whitespace runs,
accumulating the current (reversed) token in `acc`. -/
def tokenizeAux : List Char → List Char → List Str
  | [], acc => if acc.isEmpty then [] else [acc.reverse]
  | c :: cs, acc =>
    if isSpaceChar c then
      if acc.isEmpty then tokenizeAux cs [] else acc.reverse :: tokenizeAux cs []
    else
      tokenizeAux cs (c :: acc)

/-- Source `tokenize(text)`: `text.trim().split(/\s+/).filter(t => t.length > 0)` —
the whitespace-delimited tokens of the text, in order. -/
def tokenize (text : Str) : List Str :=
  tokenizeAux text []

/-- JS `\w` (non-unicode): letters, digits and underscore. -/
def isWordChar (c : Char) : Bool :=
  ('a' ≤ c && c ≤ 'z') || ('A' ≤ c && c ≤ 'Z') || ('0' ≤ c && c ≤ '9') || c = '_'

/-- ASCII lowercasing of a single character (the case arising in
`toLowerCase()` for the word characters kept by `cleanWord`). -/
def toLowerChar (c : Char) : Char :=
  if 'A' ≤ c && c ≤ 'Z' then Char.ofNat (c.toNat + 32) else c

/-- Source `cleanWord(word)`: `word.replace(/[^\w]|_/g, '').toLowerCase()`.
The regex deletes every character that is either not a word character
or an underscore, so only letters and digits survive; the remainder is
lowercased. -/
def cleanWord (word : Str) : Str :=
  (word.filter fun c => isWordChar c && c ≠ '_').map toLowerChar

/-- Kinds of diff parts (`type` field of `DiffPart`). -/
inductive DiffType where
  | match_ : DiffType
  | add : DiffType
  | remove : DiffType
deriving DecidableEq, Repr

/-- Structure `DiffPart`: one aligned unit of diff output. -/
structure DiffPart where
  value : Str
  type : DiffType
deriving DecidableEq, Repr

/-- Fueled form of `getLevenshteinDistance`; the fuel is an upper bound
on `a.length + b.length` and makes the recursion structural. -/
def levFuel : Nat → Str → Str → Nat
  | 0, a, b => max a.length b.length
  | _ + 1, [], b => b.length
  | _ + 1, a :: as, [] => (a :: as).length
  | fuel + 1, x :: xs, y :: ys =>
    let cost : Nat := if x = y then 0 else 1
    min (levFuel fuel xs (y :: ys) + 1)
      (min (levFuel fuel (x :: xs) ys + 1)
        (levFuel fuel xs ys + cost))

/-- Source `getLevenshteinDistance(a, b)`: classic unit-cost Levenshtein
distance (the source fills the standard `(|a|+1) × (|b|+1)` DP matrix
with `matrix[i][0] = i`, `matrix[0][j] = j` and
`matrix[i][j] = min(del+1, ins+1, sub+cost)`; this recursion computes
the same recurrence). -/
def getLevenshteinDistance (a b : Str) : Nat :=
  levFuel (a.length + b.length) a b

/-- Source `getLetterAccuracy(word1, word2)`: `1 - distance / maxLength`,
returning `1.0` when both words are empty. -/
def getLetterAccuracy (word1 word2 : Str) : ℚ :=
  let maxLength := max word1.length word2.length
  if maxLength = 0 then 1
  else 1 - (getLevenshteinDistance word1 word2 : ℚ) / (maxLength : ℚ)

/-- The match predicate of `calculateDiff` (lines building the DP table
and the backtracking re-check): exact equality of cleaned words, or a
fuzzy proper-noun match with letter accuracy ≥ 0.60 when the cleaned
original word is listed in `properNouns`. -/
def isMatchWords (properNouns : List Str) (uRaw oRaw : Str) : Bool :=
  let u := cleanWord uRaw
  let o := cleanWord oRaw
  if u = o then true
  else if properNouns.contains o then
    decide ((0.60 : ℚ) ≤ getLetterAccuracy u o)
  else false

/-- The fuzzy branch of the match predicate in isolation: fires when the
cleaned words differ, the cleaned original is a registered proper noun,
and the letter accuracy reaches 0.60. -/
def fuzzyMatches (properNouns : List Str) (uRaw oRaw : Str) : Bool :=
  cleanWord uRaw ≠ cleanWord oRaw && properNouns.contains (cleanWord oRaw) &&
    decide ((0.60 : ℚ) ≤ getLetterAccuracy (cleanWord uRaw) (cleanWord oRaw))

/-- Fueled form of the LCS DP table of `calculateDiff`:
`dp[0][*] = dp[*][0] = 0`, and `dp[i+1][j+1]` is `dp[i][j] + 1` on a
match of `userWords[i]` with `originalWords[j]`, else
`max (dp[i][j+1]) (dp[i+1][j])`. -/
def dpFuel (properNouns us os : List Str) : Nat → Nat → Nat → Nat
  | 0, _, _ => 0
  | _ + 1, 0, _ => 0
  | _ + 1, _ + 1, 0 => 0
  | fuel + 1, i + 1, j + 1 =>
    if isMatchWords properNouns (us.getD i []) (os.getD j []) then
      dpFuel properNouns us os fuel i j + 1
    else
      max (dpFuel properNouns us os fuel i (j + 1))
        (dpFuel properNouns us os fuel (i + 1) j)

/-- The DP table `dp[i][j]` of `calculateDiff`. -/
def dpTable (properNouns us os : List Str) (i j : Nat) : Nat :=
  dpFuel properNouns us os (i + j) i j

/-- Fueled form of the backtracking loop of `calculateDiff`.  The loop
runs while `i > 0 || j > 0`, prepending (`unshift`) one part per
iteration, so the part emitted at larger indices ends up later in the
result; the recursion below appends it after the recursive call. -/
def backtrackFuel (properNouns us os : List Str) : Nat → Nat → Nat → List DiffPart
  | 0, _, _ => []
  | _ + 1, 0, 0 => []
  | fuel + 1, 0, j + 1 =>
    backtrackFuel properNouns us os fuel 0 j ++ [⟨os.getD j [], DiffType.remove⟩]
  | fuel + 1, i + 1, 0 =>
    backtrackFuel properNouns us os fuel i 0 ++ [⟨us.getD i [], DiffType.add⟩]
  | fuel + 1, i + 1, j + 1 =>
    if isMatchWords properNouns (us.getD i []) (os.getD j []) then
      backtrackFuel properNouns us os fuel i j ++ [⟨os.getD j [], DiffType.match_⟩]
    else if dpTable properNouns us os i (j + 1) ≤ dpTable properNouns us os (i + 1) j then
      backtrackFuel properNouns us os fuel (i + 1) j ++ [⟨os.getD j [], DiffType.remove⟩]
    else
      backtrackFuel properNouns us os fuel i (j + 1) ++ [⟨us.getD i [], DiffType.add⟩]

/-- The backtracking walk from `(i, j)` toward `(0, 0)`, producing the
raw diff parts in left-to-right order. -/
def backtrack (properNouns us os : List Str) (i j : Nat) : List DiffPart :=
  backtrackFuel properNouns us os (i + j) i j

/-- The post-processing map of `calculateDiff`: an `add`/`remove` part
whose cleaned value is empty (pure punctuation) is reclassified as
`match`. -/
def cleanupParts (parts : List DiffPart) : List DiffPart :=
  parts.map fun part =>
    if part.type = DiffType.match_ then part
    else if cleanWord part.value = [] then { part with type := DiffType.match_ }
    else part

/-- The raw diff sequence of `calculateDiff` before post-processing
(the `rawParts` array after the backtracking loop). -/
def rawDiff (userText originalText : Str) (properNouns : List Str) : List DiffPart :=
  let us := tokenize userText
  let os := tokenize originalText
  backtrack properNouns us os us.length os.length

/-- Source `calculateDiff(userText, originalText, properNouns)` (extended,
three-argument version). -/
def calculateDiff (userText originalText : Str) (properNouns : List Str) : List DiffPart :=
  cleanupParts (rawDiff userText originalText properNouns)

/-- JS `Math.round` for (nonnegative) rationals: round half toward `+∞`. -/
def jsRound (q : ℚ) : ℤ := ⌊q + 1 / 2⌋

/-- Source `calculateAccuracy(diffs)`: `100` on an empty sequence, otherwise
`Math.round((matches / totalWords) * 100)`. -/
def calculateAccuracy (diffs : List DiffPart) : ℤ :=
  let totalWords := diffs.length
  if totalWords = 0 then 100
  else
    let matchCount := (diffs.filter fun d => d.type = DiffType.match_).length
    jsRound (((matchCount : ℚ) / (totalWords : ℚ)) * 100)

/-! ### Fuel insensitivity and recurrence equations -/

theorem levFuel_congr : ∀ (f g : Nat) (a b : Str), a.length + b.length ≤ f →
    a.length + b.length ≤ g → levFuel f a b = levFuel g a b := by
  intro f
  induction f with
  | zero =>
    intro g a b hf hg
    have ha : a = [] := List.length_eq_zero.mp (by omega)
    have hb : b = [] := List.length_eq_zero.mp (by omega)
    subst ha; subst hb
    cases g <;> simp [levFuel]
  | succ f ih =>
    intro g a b hf hg
    cases a with
    | nil =>
      cases g with
      | zero =>
        have hb : b = [] := List.length_eq_zero.mp (by simpa using hg)
        subst hb; simp [levFuel]
      | succ g => cases b <;> simp [levFuel]
    | cons x xs =>
      cases b with
      | nil =>
        cases g with
        | zero => simp at hg
        | succ g => simp [levFuel]
      | cons y ys =>
        cases g with
        | zero => simp at hg
        | succ g =>
          simp only [List.length_cons] at hf hg
          simp only [levFuel]
          rw [ih g xs (y :: ys) (by simp only [List.length_cons]; omega)
              (by simp only [List.length_cons]; omega),
            ih g (x :: xs) ys (by simp only [List.length_cons]; omega)
              (by simp only [List.length_cons]; omega),
            ih g xs ys (by omega) (by omega)]

theorem lev_nil_left (b : Str) : getLevenshteinDistance [] b = b.length := by
  rw [getLevenshteinDistance]
  cases b <;> simp [levFuel]

theorem lev_nil_right (a : Str) : getLevenshteinDistance a [] = a.length := by
  rw [getLevenshteinDistance]
  cases a <;> simp [levFuel]

theorem lev_cons (x y : Char) (xs ys : Str) :
    getLevenshteinDistance (x :: xs) (y :: ys) =
      min (getLevenshteinDistance xs (y :: ys) + 1)
        (min (getLevenshteinDistance (x :: xs) ys + 1)
          (getLevenshteinDistance xs ys + if x = y then 0 else 1)) := by
  conv_lhs => rw [getLevenshteinDistance]
  simp only [List.length_cons]
  rw [show xs.length + 1 + (ys.length + 1) = (xs.length + (ys.length + 1)) + 1 by omega]
  simp only [levFuel]
  rw [getLevenshteinDistance, getLevenshteinDistance, getLevenshteinDistance]
  rw [levFuel_congr _ (xs.length + (y :: ys).length) xs (y :: ys)
      (by simp only [List.length_cons]; omega) (le_refl _),
    levFuel_congr _ ((x :: xs).length + ys.length) (x :: xs) ys
      (by simp only [List.length_cons]; omega) (le_refl _),
    levFuel_congr _ (xs.length + ys.length) xs ys (by omega) (le_refl _)]

theorem dpFuel_congr (properNouns us os : List Str) :
    ∀ (f g i j : Nat), i + j ≤ f → i + j ≤ g →
      dpFuel properNouns us os f i j = dpFuel properNouns us os g i j := by
  intro f
  induction f with
  | zero =>
    intro g i j hf hg
    have hi : i = 0 := by omega
    subst hi
    cases g <;> simp [dpFuel]
  | succ f ih =>
    intro g i j hf hg
    cases i with
    | zero => cases g <;> simp [dpFuel]
    | succ i =>
      cases j with
      | zero =>
        cases g with
        | zero => omega
        | succ g => simp [dpFuel]
      | succ j =>
        cases g with
        | zero => omega
        | succ g =>
          simp only [dpFuel]
          rw [ih g i j (by omega) (by omega), ih g i (j + 1) (by omega) (by omega),
            ih g (i + 1) j (by omega) (by omega)]

theorem dpTable_zero_left (properNouns us os : List Str) (j : Nat) :
    dpTable properNouns us os 0 j = 0 := by
  rw [dpTable]
  cases j <;> simp [dpFuel]

theorem dpTable_zero_right (properNouns us os : List Str) (i : Nat) :
    dpTable properNouns us os i 0 = 0 := by
  rw [dpTable]
  cases i <;> simp [dpFuel]

theorem dpTable_succ_succ (properNouns us os : List Str) (i j : Nat) :
    dpTable properNouns us os (i + 1) (j + 1) =
      if isMatchWords properNouns (us.getD i []) (os.getD j []) then
        dpTable properNouns us os i j + 1
      else
        max (dpTable properNouns us os i (j + 1)) (dpTable properNouns us os (i + 1) j) := by
  conv_lhs => rw [dpTable]
  rw [show i + 1 + (j + 1) = (i + (j + 1)) + 1 by omega]
  simp only [dpFuel]
  rw [dpTable, dpTable, dpTable]
  rw [dpFuel_congr properNouns us os _ (i + j) i j (by omega) (by omega),
    dpFuel_congr properNouns us os _ (i + (j + 1)) i (j + 1) (by omega) (by omega),
    dpFuel_congr properNouns us os _ (i + 1 + j) (i + 1) j (by omega) (by omega)]

theorem backtrackFuel_congr (properNouns us os : List Str) :
    ∀ (f g i j : Nat), i + j ≤ f → i + j ≤ g →
      backtrackFuel properNouns us os f i j = backtrackFuel properNouns us os g i j := by
  intro f
  induction f with
  | zero =>
    intro g i j hf hg
    have hi : i = 0 := by omega
    have hj : j = 0 := by omega
    subst hi; subst hj
    cases g <;> simp [backtrackFuel]
  | succ f ih =>
    intro g i j hf hg
    cases i with
    | zero =>
      cases j with
      | zero => cases g <;> simp [backtrackFuel]
      | succ j =>
        cases g with
        | zero => omega
        | succ g =>
          simp only [backtrackFuel]
          rw [ih g 0 j (by omega) (by omega)]
    | succ i =>
      cases j with
      | zero =>
        cases g with
        | zero => omega
        | succ g =>
          simp only [backtrackFuel]
          rw [ih g i 0 (by omega) (by omega)]
      | succ j =>
        cases g with
        | zero => omega
        | succ g =>
          simp only [backtrackFuel]
          rw [ih g i j (by omega) (by omega), ih g (i + 1) j (by omega) (by omega),
            ih g i (j + 1) (by omega) (by omega)]

theorem backtrack_zero_zero (properNouns us os : List Str) :
    backtrack properNouns us os 0 0 = [] := rfl

theorem backtrack_zero_succ (properNouns us os : List Str) (j : Nat) :
    backtrack properNouns us os 0 (j + 1) =
      backtrack properNouns us os 0 j ++ [⟨os.getD j [], DiffType.remove⟩] := by
  rw [backtrack, backtrack]
  simp only [backtrackFuel]
  rfl

theorem backtrack_succ_zero (properNouns us os : List Str) (i : Nat) :
    backtrack properNouns us os (i + 1) 0 =
      backtrack properNouns us os i 0 ++ [⟨us.getD i [], DiffType.add⟩] := by
  rw [backtrack, backtrack]
  simp only [backtrackFuel]
  rw [backtrackFuel_congr properNouns us os i (i + 0) i 0 (by omega) (by omega)]

theorem backtrack_succ_succ (properNouns us os : List Str) (i j : Nat) :
    backtrack properNouns us os (i + 1) (j + 1) =
      if isMatchWords properNouns (us.getD i []) (os.getD j []) then
        backtrack properNouns us os i j ++ [⟨os.getD j [], DiffType.match_⟩]
      else if dpTable properNouns us os i (j + 1) ≤ dpTable properNouns us os (i + 1) j then
        backtrack properNouns us os (i + 1) j ++ [⟨os.getD j [], DiffType.remove⟩]
      else
        backtrack properNouns us os i (j + 1) ++ [⟨us.getD i [], DiffType.add⟩] := by
  conv_lhs => rw [backtrack]
  rw [show i + 1 + (j + 1) = (i + (j + 1)) + 1 by omega]
  simp only [backtrackFuel]
  rw [backtrack, backtrack, backtrack]
  rw [backtrackFuel_congr properNouns us os _ (i + j) i j (by omega) (by omega),
    backtrackFuel_congr properNouns us os _ (i + 1 + j) (i + 1) j (by omega) (by omega)]

/-! ### Structure of the DP table (longest matching subsequence) -/

/-- One-step monotonicity and one-step growth bounds of the DP table,
proved simultaneously by strong induction on `i + j`. -/
theorem dpTable_step_bounds (properNouns us os : List Str) :
    ∀ (s i j : Nat), i + j ≤ s →
      dpTable properNouns us os i j ≤ dpTable properNouns us os (i + 1) j ∧
      dpTable properNouns us os i j ≤ dpTable properNouns us os i (j + 1) ∧
      dpTable properNouns us os (i + 1) j ≤ dpTable properNouns us os i j + 1 ∧
      dpTable properNouns us os i (j + 1) ≤ dpTable properNouns us os i j + 1 := by
  intro s
  induction s with
  | zero =>
    intro i j h
    have hi : i = 0 := by omega
    have hj : j = 0 := by omega
    subst hi; subst hj
    simp [dpTable_zero_left, dpTable_zero_right]
  | succ s ih =>
    intro i j h
    refine ⟨?_, ?_, ?_, ?_⟩
    · cases j with
      | zero => simp [dpTable_zero_right]
      | succ j =>
        rw [dpTable_succ_succ]
        by_cases hm : isMatchWords properNouns (us.getD i []) (os.getD j []) = true
        · simp only [hm, if_true]
          exact (ih i j (by omega)).2.2.2
        · simp only [hm, if_false]
          exact le_max_left _ _
    · cases i with
      | zero => simp [dpTable_zero_left]
      | succ i =>
        rw [dpTable_succ_succ]
        by_cases hm : isMatchWords properNouns (us.getD i []) (os.getD j []) = true
        · simp only [hm, if_true]
          exact (ih i j (by omega)).2.2.1
        · simp only [hm, if_false]
          exact le_max_right _ _
    · cases j with
      | zero => simp [dpTable_zero_right]
      | succ j =>
        rw [dpTable_succ_succ]
        by_cases hm : isMatchWords properNouns (us.getD i []) (os.getD j []) = true
        · simp only [hm, if_true]
          exact Nat.succ_le_succ (ih i j (by omega)).2.1
        · simp only [hm, if_false]
          refine max_le (Nat.le_succ _) ?_
          exact le_trans (ih i j (by omega)).2.2.1 (Nat.succ_le_succ (ih i j (by omega)).2.1)
    · cases i with
      | zero => simp [dpTable_zero_left]
      | succ i =>
        rw [dpTable_succ_succ]
        by_cases hm : isMatchWords properNouns (us.getD i []) (os.getD j []) = true
        · simp only [hm, if_true]
          exact Nat.succ_le_succ (ih i j (by omega)).1
        · simp only [hm, if_false]
          refine max_le ?_ (Nat.le_succ _)
          exact le_trans (ih i j (by omega)).2.2.2 (Nat.succ_le_succ (ih i j (by omega)).1)

theorem dpTable_mono_left (properNouns us os : List Str) (j : Nat) {i i' : Nat} (h : i ≤ i') :
    dpTable properNouns us os i j ≤ dpTable properNouns us os i' j := by
  induction i', h using Nat.le_induction with
  | base => exact le_refl _
  | succ i' hii ih =>
    exact le_trans ih (dpTable_step_bounds properNouns us os (i' + j) i' j (le_refl _)).1

theorem dpTable_mono_right (properNouns us os : List Str) (i : Nat) {j j' : Nat} (h : j ≤ j') :
    dpTable properNouns us os i j ≤ dpTable properNouns us os i j' := by
  induction j', h using Nat.le_induction with
  | base => exact le_refl _
  | succ j' hjj ih =>
    exact le_trans ih (dpTable_step_bounds properNouns us os (i + j') i j' (le_refl _)).2.1

theorem dpTable_mono (properNouns us os : List Str) {i i' j j' : Nat} (hi : i ≤ i')
    (hj : j ≤ j') : dpTable properNouns us os i j ≤ dpTable properNouns us os i' j' :=
  le_trans (dpTable_mono_left properNouns us os j hi)
    (dpTable_mono_right properNouns us os i' hj)

/-- Predicate `MPairing properNouns us os i j L`: there is an order-preserving pairing of
length `L` between positions of `us` below `i` and positions of `os` below `j`
in which every pair satisfies the match predicate.  The derivation lists the
rightmost pair `(a, b)` first; the remaining pairs lie strictly to its left on
both sides, so both coordinate sequences are strictly increasing. -/
inductive MPairing (properNouns us os : List Str) : Nat → Nat → Nat → Prop where
  | nil (i j : Nat) : MPairing properNouns us os i j 0
  | cons (i j a b L : Nat) (ha : a < i) (hb : b < j)
      (hm : isMatchWords properNouns (us.getD a []) (os.getD b []) = true)
      (hp : MPairing properNouns us os a b L) : MPairing properNouns us os i j (L + 1)

theorem mpairing_mono {properNouns us os : List Str} {i i' j j' L : Nat}
    (hp : MPairing properNouns us os i j L) (hi : i ≤ i') (hj : j ≤ j') :
    MPairing properNouns us os i' j' L := by
  cases hp with
  | nil => exact MPairing.nil i' j'
  | cons i j a b L ha hb hm hp =>
    exact MPairing.cons i' j' a b L (by omega) (by omega) hm hp

theorem mpairing_le_dpTable (properNouns us os : List Str) :
    ∀ (s i j L : Nat), i + j ≤ s → MPairing properNouns us os i j L →
      L ≤ dpTable properNouns us os i j := by
  intro s
  induction s with
  | zero =>
    intro i j L h hp
    cases hp with
    | nil => exact Nat.zero_le _
    | cons i j a b L ha hb hm hp => omega
  | succ s ih =>
    intro i j L h hp
    cases hp with
    | nil => exact Nat.zero_le _
    | cons i j a b L ha hb hm hp =>
      have h1 : L ≤ dpTable properNouns us os a b := ih a b L (by omega) hp
      have h2 : dpTable properNouns us os (a + 1) (b + 1) =
          dpTable properNouns us os a b + 1 := by
        rw [dpTable_succ_succ, if_pos hm]
      have h3 : dpTable properNouns us os (a + 1) (b + 1) ≤ dpTable properNouns us os i j :=
        dpTable_mono properNouns us os (by omega) (by omega)
      omega

theorem dpTable_realized (properNouns us os : List Str) :
    ∀ (s i j : Nat), i + j ≤ s →
      MPairing properNouns us os i j (dpTable properNouns us os i j) := by
  intro s
  induction s with
  | zero =>
    intro i j h
    have hi : i = 0 := by omega
    subst hi
    rw [dpTable_zero_left]
    exact MPairing.nil 0 j
  | succ s ih =>
    intro i j h
    cases i with
    | zero =>
      rw [dpTable_zero_left]
      exact MPairing.nil 0 j
    | succ i =>
      cases j with
      | zero =>
        rw [dpTable_zero_right]
        exact MPairing.nil (i + 1) 0
      | succ j =>
        rw [dpTable_succ_succ]
        by_cases hm : isMatchWords properNouns (us.getD i []) (os.getD j []) = true
        · simp only [hm, if_true]
          exact MPairing.cons (i + 1) (j + 1) i j _ (by omega) (by omega) hm
            (ih i j (by omega))
        · simp only [hm, if_false]
          rcases le_total (dpTable properNouns us os i (j + 1))
              (dpTable properNouns us os (i + 1) j) with hle | hle
          · rw [max_eq_right hle]
            exact mpairing_mono (ih (i + 1) j (by omega)) (le_refl _) (by omega)
          · rw [max_eq_left hle]
            exact mpairing_mono (ih i (j + 1) (by omega)) (by omega) (le_refl _)

/-! ### Claim C6: the DP table computes the longest matching subsequence -/

/-- C6: for every pair of token sequences `us` (length n) and `os` (length m)
and every proper-noun set, the DP table value `dp[n][m]` — defined by
`dp[0][*] = dp[*][0] = 0` and the match/max recurrence — is the greatest
length of an order-preserving pairing of positions of `us` with positions of
`os` in which every pair satisfies the match predicate. -/
theorem dpTable_is_longest_matching_subsequence (properNouns us os : List Str) :
    IsGreatest {L | MPairing properNouns us os us.length os.length L}
      (dpTable properNouns us os us.length os.length) :=
  ⟨dpTable_realized properNouns us os (us.length + os.length) _ _ (le_refl _),
    fun _ hL => mpairing_le_dpTable properNouns us os (us.length + os.length) _ _ _
      (le_refl _) hL⟩

/-! ### Claim C5: the normalizer -/

/-- ASCII letters and digits: the characters that `cleanWord` actually
keeps (its regex `[^\w]|_` deletes non-word characters and underscores). -/
def isLetterOrDigit (c : Char) : Bool :=
  ('a' ≤ c && c ≤ 'z') || ('A' ≤ c && c ≤ 'Z') || ('0' ≤ c && c ≤ '9')

/-- C5 counterexample: the claim says underscores are retained by
`normalize`, but `cleanWord "a_b"` is `"ab"`, not `"a_b"`, and an
all-underscore token normalizes to the empty string. -/
theorem cleanWord_drops_underscore :
    cleanWord ['a', '_', 'b'] = ['a', 'b'] ∧ cleanWord ['a', '_', 'b'] ≠ ['a', '_', 'b'] ∧
      cleanWord ['_', '_'] = [] := by decide

/-- C5 (amended): `cleanWord` removes every character that is not a word
character and additionally removes underscores — only letters and digits
are retained, lowercased — and a token with no letters or digits
normalizes to the empty string. -/
theorem cleanWord_spec (w : Str) :
    cleanWord w = (w.filter isLetterOrDigit).map toLowerChar ∧
      ((∀ c ∈ w, isLetterOrDigit c = false) → cleanWord w = []) := by
  have hfilter : ∀ c : Char, (isWordChar c && decide (c ≠ '_')) = isLetterOrDigit c := by
    intro c
    by_cases hc : c = '_'
    · subst hc; decide
    · simp [isWordChar, isLetterOrDigit, hc]
  have hcw : cleanWord w = (w.filter isLetterOrDigit).map toLowerChar := by
    rw [cleanWord, funext hfilter]
  refine ⟨hcw, fun hall => ?_⟩
  rw [hcw, List.filter_eq_nil_iff.mpr ?_, List.map_nil]
  intro a ha
  simp [hall a ha]

theorem cleanWord_spec_witness :
    cleanWord ['!'] = (['!'].filter isLetterOrDigit).map toLowerChar ∧ cleanWord ['!'] = [] :=
  ⟨(cleanWord_spec ['!']).1, (cleanWord_spec ['!']).2 (by decide)⟩

/-! ### Claim C3: the match predicate -/

/-- C3: the match predicate of `diff` holds iff the normalized keys are
equal, or the normalized reference key is a registered proper noun and
the similarity `1 − editDistance / max(len, len)` is at least `0.60`,
where `editDistance` is classic unit-cost Levenshtein distance
(characterized by its standard recurrences, restated here). -/
theorem isMatchWords_spec (properNouns : List Str) (u o : Str) :
    (isMatchWords properNouns u o = true ↔
      (cleanWord u = cleanWord o ∨
        (properNouns.contains (cleanWord o) = true ∧
          (0.60 : ℚ) ≤ 1 - (getLevenshteinDistance (cleanWord u) (cleanWord o) : ℚ) /
            ((max (cleanWord u).length (cleanWord o).length : ℕ) : ℚ)))) ∧
    (∀ b : Str, getLevenshteinDistance [] b = b.length) ∧
    (∀ a : Str, getLevenshteinDistance a [] = a.length) ∧
    (∀ (x y : Char) (xs ys : Str), getLevenshteinDistance (x :: xs) (y :: ys) =
      min (getLevenshteinDistance xs (y :: ys) + 1)
        (min (getLevenshteinDistance (x :: xs) ys + 1)
          (getLevenshteinDistance xs ys + if x = y then 0 else 1))) := by
  refine ⟨?_, lev_nil_left, lev_nil_right, lev_cons⟩
  rw [isMatchWords]
  by_cases he : cleanWord u = cleanWord o
  · simp [he]
  · rw [if_neg he]
    by_cases hc : properNouns.contains (cleanWord o) = true
    · rw [if_pos hc]
      have hmax : ¬(max (cleanWord u).length (cleanWord o).length = 0) := by
        intro h0
        apply he
        rw [List.length_eq_zero.mp (show (cleanWord u).length = 0 by omega),
          List.length_eq_zero.mp (show (cleanWord o).length = 0 by omega)]
      rw [getLetterAccuracy]
      simp only [hmax, if_false, decide_eq_true_eq]
      constructor
      · intro h
        exact Or.inr ⟨hc, h⟩
      · intro h
        rcases h with h | ⟨-, h⟩
        · exact absurd h he
        · exact h
    · rw [if_neg hc]
      simp only [Bool.false_eq_true, false_iff]
      intro h
      rcases h with h | ⟨h, -⟩
      · exact he h
      · exact hc h

theorem isMatchWords_spec_witness :
    isMatchWords [['j', 'o', 'h', 'n']] ['j', 'o', 'n'] ['J', 'o', 'h', 'n', '.'] = true := by
  refine ((isMatchWords_spec [['j', 'o', 'h', 'n']] ['j', 'o', 'n']
    ['J', 'o', 'h', 'n', '.']).1).mpr (Or.inr ⟨by decide, ?_⟩)
  have h1 : cleanWord ['j', 'o', 'n'] = ['j', 'o', 'n'] := by decide
  have h2 : cleanWord ['J', 'o', 'h', 'n', '.'] = ['j', 'o', 'h', 'n'] := by decide
  rw [h1, h2]
  norm_num [show getLevenshteinDistance ['j', 'o', 'n'] ['j', 'o', 'h', 'n'] = 1 from by decide]

/-! ### Claim C8: empty normalized reference keys never match fuzzily -/

/-- C8: a token pair whose reference token normalizes to the empty string
is never matched through the fuzzy proper-noun branch, for every
proper-noun set (including one containing the empty string): the overall
match predicate then behaves exactly as with no proper nouns at all, and
holds iff the user token also normalizes to the empty string (the
exact-equality branch). -/
theorem empty_key_never_fuzzy (properNouns : List Str) (u o : Str)
    (ho : cleanWord o = []) :
    fuzzyMatches properNouns u o = false ∧
    isMatchWords properNouns u o = isMatchWords [] u o ∧
    (isMatchWords properNouns u o = true ↔ cleanWord u = []) := by
  by_cases hu : cleanWord u = []
  · refine ⟨?_, ?_, ?_⟩
    · rw [fuzzyMatches, hu, ho]
      simp
    · rw [isMatchWords, isMatchWords, hu, ho]
      simp
    · rw [isMatchWords, hu, ho]
      simp
  · have hlen : ((cleanWord u).length : ℚ) ≠ 0 := by
      rw [Nat.cast_ne_zero]
      exact fun h => hu (List.length_eq_zero.mp h)
    have hacc : getLetterAccuracy (cleanWord u) [] = 0 := by
      rw [getLetterAccuracy]
      simp only [List.length_nil, Nat.max_zero]
      rw [if_neg (fun h => hu (List.length_eq_zero.mp h)), lev_nil_right]
      rw [div_self hlen]
      ring
    have hdec : decide ((0.60 : ℚ) ≤ getLetterAccuracy (cleanWord u) []) = false := by
      rw [hacc]
      exact decide_eq_false (by norm_num)
    refine ⟨?_, ?_, ?_⟩
    · rw [fuzzyMatches, ho, hdec]
      simp
    · rw [isMatchWords, isMatchWords, ho, if_neg hu, if_neg hu]
      by_cases hc : properNouns.contains ([] : Str) = true
      · rw [if_pos hc, hdec]
        simp
      · rw [if_neg hc]
        simp
    · rw [isMatchWords, ho, if_neg hu]
      by_cases hc : properNouns.contains ([] : Str) = true
      · rw [if_pos hc, hdec]
        simp [hu]
      · rw [if_neg hc]
        simp [hu]

theorem empty_key_never_fuzzy_witness :
    fuzzyMatches [([] : Str)] ['a'] ['!'] = false ∧
    isMatchWords [([] : Str)] ['a'] ['!'] = isMatchWords [] ['a'] ['!'] ∧
    (isMatchWords [([] : Str)] ['a'] ['!'] = true ↔ cleanWord ['a'] = []) :=
  empty_key_never_fuzzy [([] : Str)] ['a'] ['!'] (by decide)

/-! ### Claim C1: reconstruction of the token sequences from the diff -/

theorem take_succ_getD (l : List Str) (n : Nat) (h : n < l.length) :
    l.take (n + 1) = l.take n ++ [l.getD n []] := by
  rw [List.take_succ, List.getElem?_eq_getElem h]
  simp [List.getD_eq_getElem?_getD, List.getElem?_eq_getElem h]

/-- With no proper nouns the match predicate is exactly equality of the
cleaned words. -/
theorem isMatchWords_nil_iff (u o : Str) :
    isMatchWords [] u o = true ↔ cleanWord u = cleanWord o := by
  rw [isMatchWords]
  by_cases he : cleanWord u = cleanWord o
  · simp [he]
  · simp [he]

/-- Projections of the raw backtracking output: the `match`+`remove`
values reconstruct the reference prefix `os.take j`; the `match`+`add`
parts number exactly `i`; and with no proper nouns their cleaned values
reconstruct the cleaned user prefix `us.take i`. -/
theorem backtrack_proj (properNouns us os : List Str) :
    ∀ (s i j : Nat), i + j ≤ s → i ≤ us.length → j ≤ os.length →
      (((backtrack properNouns us os i j).filter fun p => p.type ≠ DiffType.add).map
          (fun p => p.value) = os.take j) ∧
      (((backtrack properNouns us os i j).filter fun p => p.type ≠ DiffType.remove).length = i) ∧
      (properNouns = [] →
        ((backtrack properNouns us os i j).filter fun p => p.type ≠ DiffType.remove).map
          (fun p => cleanWord p.value) = (us.take i).map cleanWord) := by
  intro s
  induction s with
  | zero =>
    intro i j h hi hj
    have hi0 : i = 0 := by omega
    have hj0 : j = 0 := by omega
    subst hi0; subst hj0
    rw [backtrack_zero_zero]
    simp
  | succ s ih =>
    intro i j h hi hj
    cases i with
    | zero =>
      cases j with
      | zero =>
        rw [backtrack_zero_zero]
        simp
      | succ j =>
        have prev := ih 0 j (by omega) (by omega) (by omega)
        rw [backtrack_zero_succ]
        refine ⟨?_, ?_, ?_⟩
        · rw [List.filter_append, List.map_append, prev.1,
            take_succ_getD os j (by omega)]
          simp
        · rw [List.filter_append, List.length_append, prev.2.1]
          simp
        · intro hpn
          rw [List.filter_append, List.map_append, prev.2.2 hpn]
          simp
    | succ i =>
      cases j with
      | zero =>
        have prev := ih i 0 (by omega) (by omega) (by omega)
        rw [backtrack_succ_zero]
        refine ⟨?_, ?_, ?_⟩
        · rw [List.filter_append, List.map_append, prev.1]
          simp
        · rw [List.filter_append, List.length_append, prev.2.1]
          simp
        · intro hpn
          rw [List.filter_append, List.map_append, prev.2.2 hpn,
            take_succ_getD us i (by omega), List.map_append]
          simp
      | succ j =>
        rw [backtrack_succ_succ]
        by_cases hm : isMatchWords properNouns (us.getD i []) (os.getD j []) = true
        · rw [if_pos hm]
          have prev := ih i j (by omega) (by omega) (by omega)
          refine ⟨?_, ?_, ?_⟩
          · rw [List.filter_append, List.map_append, prev.1,
              take_succ_getD os j (by omega)]
            simp
          · rw [List.filter_append, List.length_append, prev.2.1]
            simp
          · intro hpn
            subst hpn
            have hkey : cleanWord (us.getD i []) = cleanWord (os.getD j []) :=
              (isMatchWords_nil_iff _ _).mp hm
            rw [List.filter_append, List.map_append, prev.2.2 rfl,
              take_succ_getD us i (by omega), List.map_append, List.map_singleton, hkey]
            simp
        · rw [if_neg hm]
          by_cases hd : dpTable properNouns us os i (j + 1) ≤ dpTable properNouns us os (i + 1) j
          · rw [if_pos hd]
            have prev := ih (i + 1) j (by omega) (by omega) (by omega)
            refine ⟨?_, ?_, ?_⟩
            · rw [List.filter_append, List.map_append, prev.1,
                take_succ_getD os j (by omega)]
              simp
            · rw [List.filter_append, List.length_append, prev.2.1]
              simp
            · intro hpn
              rw [List.filter_append, List.map_append, prev.2.2 hpn]
              simp
          · rw [if_neg hd]
            have prev := ih i (j + 1) (by omega) (by omega) (by omega)
            refine ⟨?_, ?_, ?_⟩
            · rw [List.filter_append, List.map_append, prev.1]
              simp
            · rw [List.filter_append, List.length_append, prev.2.1]
              simp
            · intro hpn
              rw [List.filter_append, List.map_append, prev.2.2 hpn,
                take_succ_getD us i (by omega), List.map_append]
              simp

/-- C1 counterexample: after the punctuation reclassification the
`match`+`remove` surface forms need not reconstruct `tokenize(O)` (a
user-only punctuation token is reclassified to `match`), and the
`match`+`add` surface forms need not reconstruct `tokenize(U)` (a
`match` part carries the reference's surface form, not the user's). -/
theorem diff_reconstruction_counterexample :
    ((((calculateDiff ['h', 'i', ' ', '!'] ['h', 'i'] []).filter
        fun p => p.type ≠ DiffType.add).map fun p => p.value) ≠
      tokenize ['h', 'i']) ∧
    ((((calculateDiff ['H', 'e', 'l', 'l', 'o'] ['h', 'e', 'l', 'l', 'o', '.'] []).filter
        fun p => p.type ≠ DiffType.remove).map fun p => p.value) ≠
      tokenize ['H', 'e', 'l', 'l', 'o']) := by decide

/-- C1 (amended): the reconstruction invariant holds of the raw
backtracking output, before the punctuation reclassification, and on the
reference side only: the `match`+`remove` values in order are exactly
`tokenize(O)`.  On the user side the `match`+`add` parts correspond
one-to-one and in order to `tokenize(U)` (in particular their count is
the number of user tokens), and with an empty proper-noun set their
normalized keys reconstruct the normalized keys of `tokenize(U)`; the
surface forms themselves are not reconstructed because `match` parts
carry the reference's surface form. -/
theorem rawDiff_reconstruction (userText originalText : Str) (properNouns : List Str) :
    (((rawDiff userText originalText properNouns).filter fun p => p.type ≠ DiffType.add).map
        (fun p => p.value) = tokenize originalText) ∧
    (((rawDiff userText originalText properNouns).filter
        fun p => p.type ≠ DiffType.remove).length = (tokenize userText).length) ∧
    (properNouns = [] →
      ((rawDiff userText originalText properNouns).filter fun p => p.type ≠ DiffType.remove).map
        (fun p => cleanWord p.value) = (tokenize userText).map cleanWord) := by
  have h := backtrack_proj properNouns (tokenize userText) (tokenize originalText)
    ((tokenize userText).length + (tokenize originalText).length) (tokenize userText).length
    (tokenize originalText).length (le_refl _) (le_refl _) (le_refl _)
  rw [rawDiff]
  refine ⟨?_, h.2.1, ?_⟩
  · rw [h.1, List.take_length]
  · intro hpn
    rw [h.2.2 hpn, List.take_length]

theorem rawDiff_reconstruction_witness :
    (((rawDiff ['a', 'b', ' ', 'c'] ['a', 'b'] []).filter fun p => p.type ≠ DiffType.add).map
        (fun p => p.value) = tokenize ['a', 'b']) ∧
    (((rawDiff ['a', 'b', ' ', 'c'] ['a', 'b'] []).filter
        fun p => p.type ≠ DiffType.remove).length = (tokenize ['a', 'b', ' ', 'c']).length) ∧
    ((rawDiff ['a', 'b', ' ', 'c'] ['a', 'b'] []).filter fun p => p.type ≠ DiffType.remove).map
        (fun p => cleanWord p.value) = (tokenize ['a', 'b', ' ', 'c']).map cleanWord := by
  have h := rawDiff_reconstruction ['a', 'b', ' ', 'c'] ['a', 'b'] []
  exact ⟨h.1, h.2.1, h.2.2 rfl⟩

/-! ### Claim C2: the accuracy formula -/

/-- Unfolding of `calculateAccuracy` on a nonempty sequence. -/
theorem calculateAccuracy_eq (diffs : List DiffPart) (h : diffs ≠ []) :
    calculateAccuracy diffs =
      jsRound (((diffs.filter fun d => d.type = DiffType.match_).length : ℚ) /
        (diffs.length : ℚ) * 100) := by
  rw [calculateAccuracy]
  rw [if_neg (fun h0 => h (List.length_eq_zero.mp h0))]

/-- C2: `accuracy` returns 100 on the empty sequence, and otherwise
`round(100 * matchCount / totalPartCount)` with round-half-up rounding
(`⌊x + 1/2⌋`); the result always lies between 0 and 100. -/
theorem calculateAccuracy_spec (diffs : List DiffPart) :
    calculateAccuracy [] = 100 ∧
    (diffs ≠ [] → calculateAccuracy diffs =
      ⌊100 * ((diffs.filter fun d => d.type = DiffType.match_).length : ℚ) /
        (diffs.length : ℚ) + 1 / 2⌋) ∧
    0 ≤ calculateAccuracy diffs ∧ calculateAccuracy diffs ≤ 100 := by
  refine ⟨rfl, ?_, ?_⟩
  · intro h
    rw [calculateAccuracy_eq diffs h, jsRound]
    congr 1
    ring
  · by_cases h : diffs = []
    · subst h
      refine ⟨by norm_num [calculateAccuracy], by norm_num [calculateAccuracy]⟩
    · have hn : (0 : ℚ) < (diffs.length : ℚ) := by
        have := List.length_pos.mpr h
        exact_mod_cast this
      have hm : ((diffs.filter fun d => d.type = DiffType.match_).length : ℚ) ≤
          (diffs.length : ℚ) := by
        exact_mod_cast List.length_filter_le _ diffs
      have hm0 : (0 : ℚ) ≤ ((diffs.filter fun d => d.type = DiffType.match_).length : ℚ) := by
        positivity
      rw [calculateAccuracy_eq diffs h, jsRound]
      constructor
      · apply Int.le_floor.mpr
        push_cast
        positivity
      · have hq : ((diffs.filter fun d => d.type = DiffType.match_).length : ℚ) /
            (diffs.length : ℚ) * 100 ≤ 100 := by
          rw [div_mul_eq_mul_div, div_le_iff₀ hn]
          nlinarith
        apply Int.floor_le_iff.mpr
        push_cast
        linarith

theorem calculateAccuracy_spec_witness :
    ([(⟨['a'], DiffType.match_⟩ : DiffPart), ⟨['b'], DiffType.add⟩] ≠ []) ∧
    calculateAccuracy [⟨['a'], DiffType.match_⟩, ⟨['b'], DiffType.add⟩] =
      ⌊100 * (([(⟨['a'], DiffType.match_⟩ : DiffPart), ⟨['b'], DiffType.add⟩].filter
          fun d => d.type = DiffType.match_).length : ℚ) /
        ([(⟨['a'], DiffType.match_⟩ : DiffPart), ⟨['b'], DiffType.add⟩].length : ℚ) + 1 / 2⌋ ∧
    0 ≤ calculateAccuracy [⟨['a'], DiffType.match_⟩, ⟨['b'], DiffType.add⟩] ∧
    calculateAccuracy [⟨['a'], DiffType.match_⟩, ⟨['b'], DiffType.add⟩] ≤ 100 := by
  have h := calculateAccuracy_spec [⟨['a'], DiffType.match_⟩, ⟨['b'], DiffType.add⟩]
  exact ⟨by decide, h.2.1 (by decide), h.2.2.1, h.2.2.2⟩

/-! ### Claim C9: accuracy monotonicity under match degradation -/

/-- One step of the claim's replacement relation: the part is unchanged,
or a `match` part is replaced by a part of another kind. -/
def DegradesPart (p q : DiffPart) : Prop :=
  q = p ∨ (p.type = DiffType.match_ ∧ q.type ≠ DiffType.match_)

theorem degrades_filter_le {d1 d2 : List DiffPart}
    (h : List.Forall₂ DegradesPart d1 d2) :
    (d2.filter fun d => d.type = DiffType.match_).length ≤
      (d1.filter fun d => d.type = DiffType.match_).length := by
  induction h with
  | nil => exact le_refl _
  | cons hpq htail ih =>
    rename_i p q t1 t2
    rcases hpq with rfl | ⟨hp, hq⟩
    · by_cases hc : q.type = DiffType.match_ <;> simp [List.filter_cons, hc] <;> omega
    · simp [List.filter_cons, hp, hq]
      omega

theorem degrades_filter_lt {d1 d2 : List DiffPart}
    (h : List.Forall₂ DegradesPart d1 d2) (hne : d1 ≠ d2) :
    (d2.filter fun d => d.type = DiffType.match_).length <
      (d1.filter fun d => d.type = DiffType.match_).length := by
  induction h with
  | nil => exact absurd rfl hne
  | cons hpq htail ih =>
    rename_i p q t1 t2
    rcases hpq with rfl | ⟨hp, hq⟩
    · have hne' : t1 ≠ t2 := fun he => hne (by rw [he])
      have hih := ih hne'
      by_cases hc : q.type = DiffType.match_ <;> simp [List.filter_cons, hc] <;> omega
    · have hle := degrades_filter_le htail
      simp [List.filter_cons, hp, hq]
      omega

/-- The two concrete 101-part sequences of the C9 counterexample:
51 (resp. 50) `match` parts followed by 50 (resp. 51) `add` parts. -/
def matchPartA : DiffPart := ⟨['a'], DiffType.match_⟩

def addPartA : DiffPart := ⟨['a'], DiffType.add⟩

def degradeList1 : List DiffPart :=
  List.replicate 50 matchPartA ++ matchPartA :: List.replicate 50 addPartA

def degradeList2 : List DiffPart :=
  List.replicate 50 matchPartA ++ addPartA :: List.replicate 50 addPartA

/-- C9 counterexample: at sequence length 101, replacing one `match`
part by an `add` part does not change the rounded accuracy (both
sequences score 50), so strict decrease fails. -/
theorem accuracy_strict_decrease_counterexample :
    List.Forall₂ DegradesPart degradeList1 degradeList2 ∧
    degradeList1 ≠ degradeList2 ∧
    calculateAccuracy degradeList2 = calculateAccuracy degradeList1 ∧
    calculateAccuracy degradeList1 = 50 := by
  have hrel : List.Forall₂ DegradesPart degradeList1 degradeList2 := by
    rw [degradeList1, degradeList2]
    refine List.rel_append ?_ ?_
    · exact List.forall₂_same.mpr fun x _ => Or.inl rfl
    · exact List.Forall₂.cons (Or.inr ⟨rfl, by decide⟩)
        (List.forall₂_same.mpr fun x _ => Or.inl rfl)
  have hf1 : (degradeList1.filter fun d => d.type = DiffType.match_).length = 51 := by decide
  have hl1 : degradeList1.length = 101 := by decide
  have hf2 : (degradeList2.filter fun d => d.type = DiffType.match_).length = 50 := by decide
  have hl2 : degradeList2.length = 101 := by decide
  have h1 : calculateAccuracy degradeList1 = 50 := by
    rw [calculateAccuracy_eq _ (by decide), hf1, hl1, jsRound]
    norm_num [Int.floor_eq_iff]
  have h2 : calculateAccuracy degradeList2 = 50 := by
    rw [calculateAccuracy_eq _ (by decide), hf2, hl2, jsRound]
    norm_num [Int.floor_eq_iff]
  exact ⟨hrel, by decide, by rw [h1, h2], h1⟩

/-- C9 (amended): replacing one or more `match` parts by `add`/`remove`
parts (sequence length held constant) never increases the accuracy, and
strictly decreases it whenever the sequence length is at most 100; at
length 101 and beyond the rounding can absorb a single replacement. -/
theorem accuracy_monotone (d1 d2 : List DiffPart)
    (hrel : List.Forall₂ DegradesPart d1 d2) (hne : d1 ≠ d2) :
    calculateAccuracy d2 ≤ calculateAccuracy d1 ∧
      (d1.length ≤ 100 → calculateAccuracy d2 < calculateAccuracy d1) := by
  have hlen : d1.length = d2.length := hrel.length_eq
  have hlt := degrades_filter_lt hrel hne
  have hne1 : d1 ≠ [] := by
    rintro rfl
    cases hrel
    exact hne rfl
  have hne2 : d2 ≠ [] := by
    rintro rfl
    cases hrel
    exact hne rfl
  have hn : (0 : ℚ) < (d1.length : ℚ) := by
    have := List.length_pos.mpr hne1
    exact_mod_cast this
  rw [calculateAccuracy_eq d1 hne1, calculateAccuracy_eq d2 hne2, jsRound, jsRound, ← hlen]
  have hmq : ((d2.filter fun d => d.type = DiffType.match_).length : ℚ) + 1 ≤
      ((d1.filter fun d => d.type = DiffType.match_).length : ℚ) := by
    exact_mod_cast hlt
  constructor
  · apply Int.floor_le_floor
    have hd : ((d2.filter fun d => d.type = DiffType.match_).length : ℚ) / (d1.length : ℚ) ≤
        ((d1.filter fun d => d.type = DiffType.match_).length : ℚ) / (d1.length : ℚ) :=
      div_le_div_of_nonneg_right (by linarith) hn.le
    linarith
  · intro h100
    have h1n : (1 : ℚ) ≤ 100 / (d1.length : ℚ) := by
      rw [le_div_iff₀ hn]
      have : (d1.length : ℚ) ≤ 100 := by exact_mod_cast h100
      linarith
    have hstep : ((d2.filter fun d => d.type = DiffType.match_).length : ℚ) /
          (d1.length : ℚ) * 100 + 1 ≤
        ((d1.filter fun d => d.type = DiffType.match_).length : ℚ) /
          (d1.length : ℚ) * 100 := by
      have hgc : (((d2.filter fun d => d.type = DiffType.match_).length : ℚ) + 1) /
            (d1.length : ℚ) * 100 ≤
          ((d1.filter fun d => d.type = DiffType.match_).length : ℚ) /
            (d1.length : ℚ) * 100 := by
        exact mul_le_mul_of_nonneg_right
          (div_le_div_of_nonneg_right hmq hn.le) (by norm_num)
      have hring : (((d2.filter fun d => d.type = DiffType.match_).length : ℚ) + 1) /
            (d1.length : ℚ) * 100 =
          ((d2.filter fun d => d.type = DiffType.match_).length : ℚ) /
            (d1.length : ℚ) * 100 + 100 / (d1.length : ℚ) := by
        ring
      linarith
    calc ⌊((d2.filter fun d => d.type = DiffType.match_).length : ℚ) /
          (d1.length : ℚ) * 100 + 1 / 2⌋
        < ⌊((d2.filter fun d => d.type = DiffType.match_).length : ℚ) /
            (d1.length : ℚ) * 100 + 1 / 2⌋ + 1 := by omega
      _ = ⌊((d2.filter fun d => d.type = DiffType.match_).length : ℚ) /
            (d1.length : ℚ) * 100 + 1 / 2 + 1⌋ := (Int.floor_add_one _).symm
      _ ≤ ⌊((d1.filter fun d => d.type = DiffType.match_).length : ℚ) /
            (d1.length : ℚ) * 100 + 1 / 2⌋ := Int.floor_le_floor (by linarith)

theorem accuracy_monotone_witness :
    List.Forall₂ DegradesPart
      [(⟨['a'], DiffType.match_⟩ : DiffPart), ⟨['b'], DiffType.match_⟩]
      [(⟨['a'], DiffType.match_⟩ : DiffPart), ⟨['b'], DiffType.add⟩] ∧
    ([(⟨['a'], DiffType.match_⟩ : DiffPart), ⟨['b'], DiffType.match_⟩] ≠
      [(⟨['a'], DiffType.match_⟩ : DiffPart), ⟨['b'], DiffType.add⟩]) ∧
    calculateAccuracy [(⟨['a'], DiffType.match_⟩ : DiffPart), ⟨['b'], DiffType.add⟩] ≤
      calculateAccuracy [(⟨['a'], DiffType.match_⟩ : DiffPart), ⟨['b'], DiffType.match_⟩] ∧
    calculateAccuracy [(⟨['a'], DiffType.match_⟩ : DiffPart), ⟨['b'], DiffType.add⟩] <
      calculateAccuracy [(⟨['a'], DiffType.match_⟩ : DiffPart), ⟨['b'], DiffType.match_⟩] := by
  have hrel : List.Forall₂ DegradesPart
      [(⟨['a'], DiffType.match_⟩ : DiffPart), ⟨['b'], DiffType.match_⟩]
      [(⟨['a'], DiffType.match_⟩ : DiffPart), ⟨['b'], DiffType.add⟩] :=
    List.Forall₂.cons (Or.inl rfl)
      (List.Forall₂.cons (Or.inr ⟨rfl, by decide⟩) List.Forall₂.nil)
  have h := accuracy_monotone _ _ hrel (by decide)
  exact ⟨hrel, by decide, h.1, h.2 (by decide)⟩

/-! ### Claim C4: the "hello wrold" example and the tie-break -/

theorem hello_wrold_diff :
    calculateDiff ("hello wrold".toList) ("hello world".toList) [] =
      [⟨"hello".toList, DiffType.match_⟩, ⟨"wrold".toList, DiffType.add⟩,
        ⟨"world".toList, DiffType.remove⟩] := by decide

theorem hello_wrold_accuracy :
    calculateAccuracy (calculateDiff ("hello wrold".toList) ("hello world".toList) []) = 33 := by
  rw [hello_wrold_diff, calculateAccuracy_eq _ (by decide)]
  have hf : (([⟨"hello".toList, DiffType.match_⟩, ⟨"wrold".toList, DiffType.add⟩,
      ⟨"world".toList, DiffType.remove⟩] : List DiffPart).filter
      fun d => d.type = DiffType.match_).length = 1 := by decide
  have hl : ([⟨"hello".toList, DiffType.match_⟩, ⟨"wrold".toList, DiffType.add⟩,
      ⟨"world".toList, DiffType.remove⟩] : List DiffPart).length = 3 := by decide
  rw [hf, hl, jsRound]
  norm_num [Int.floor_eq_iff]

/-- C4 counterexample: `diff("hello wrold", "hello world", {})` does not
return `[match("hello"), remove("world"), add("wrold")]`, and its
accuracy is not 50 (the actual sequence has the `remove` part last and
accuracy 33). -/
theorem tie_break_counterexample :
    calculateDiff ("hello wrold".toList) ("hello world".toList) [] ≠
      [⟨"hello".toList, DiffType.match_⟩, ⟨"world".toList, DiffType.remove⟩,
        ⟨"wrold".toList, DiffType.add⟩] ∧
    calculateAccuracy (calculateDiff ("hello wrold".toList) ("hello world".toList) []) ≠ 50 := by
  refine ⟨by decide, ?_⟩
  rw [hello_wrold_accuracy]
  decide

/-- C4 (amended): `diff("hello wrold", "hello world", {})` returns
`[match("hello"), add("wrold"), remove("world")]`; the backtracking
tie-break takes the `remove` branch first (at `(2, 2)`, because
`dp[1][2] ≤ dp[2][1]`), but since the loop walks right to left and
prepends each part, the `remove` part ends up after the `add` part in
the final left-to-right sequence; the accuracy of the three-part
sequence (one match out of three parts) is 33, not 50. -/
theorem tie_break_example :
    calculateDiff ("hello wrold".toList) ("hello world".toList) [] =
      [⟨"hello".toList, DiffType.match_⟩, ⟨"wrold".toList, DiffType.add⟩,
        ⟨"world".toList, DiffType.remove⟩] ∧
    dpTable [] (tokenize ("hello wrold".toList)) (tokenize ("hello world".toList)) 1 2 ≤
      dpTable [] (tokenize ("hello wrold".toList)) (tokenize ("hello world".toList)) 2 1 ∧
    backtrack [] (tokenize ("hello wrold".toList)) (tokenize ("hello world".toList)) 2 2 =
      backtrack [] (tokenize ("hello wrold".toList)) (tokenize ("hello world".toList)) 2 1 ++
        [⟨"world".toList, DiffType.remove⟩] ∧
    calculateAccuracy (calculateDiff ("hello wrold".toList) ("hello world".toList) []) = 33 :=
  ⟨hello_wrold_diff, by decide, by decide, hello_wrold_accuracy⟩

/-! ### Claim C7: totality of the backtracking loop -/

/-- Guard of the `match` branch of the backtracking loop at `(i, j)`. -/
def matchGuard (properNouns us os : List Str) (i j : Nat) : Prop :=
  0 < i ∧ 0 < j ∧
    isMatchWords properNouns (us.getD (i - 1) []) (os.getD (j - 1) []) = true

/-- Guard of the `remove` branch of the backtracking loop at `(i, j)`:
`j > 0 && (i == 0 || dp[i][j-1] >= dp[i-1][j])`. -/
def removeGuard (properNouns us os : List Str) (i j : Nat) : Prop :=
  0 < j ∧ (i = 0 ∨ dpTable properNouns us os (i - 1) j ≤ dpTable properNouns us os i (j - 1))

/-- Guard of the `add` branch of the backtracking loop at `(i, j)`:
`i > 0 && (j == 0 || dp[i][j-1] < dp[i-1][j])`. -/
def addGuard (properNouns us os : List Str) (i j : Nat) : Prop :=
  0 < i ∧ (j = 0 ∨ dpTable properNouns us os i (j - 1) < dpTable properNouns us os (i - 1) j)

/-- C7: the diff computation is total.  On every backtracking state with
`i > 0` or `j > 0`, one of the three branch guards applies (in the
if/else-if order of the code), the raw `remove` and `add` guards are
mutually exclusive, and the branch that fires performs exactly the step
the embedded `backtrack` function performs while strictly decreasing
`i + j` — so the loop terminates on every input. -/
theorem backtrack_step_total (properNouns us os : List Str) (i j : Nat) (h : 0 < i + j) :
    (matchGuard properNouns us os i j ∨ removeGuard properNouns us os i j ∨
      addGuard properNouns us os i j) ∧
    ¬(removeGuard properNouns us os i j ∧ addGuard properNouns us os i j) ∧
    (matchGuard properNouns us os i j →
      backtrack properNouns us os i j =
        backtrack properNouns us os (i - 1) (j - 1) ++
          [⟨os.getD (j - 1) [], DiffType.match_⟩] ∧
      (i - 1) + (j - 1) < i + j) ∧
    (¬matchGuard properNouns us os i j → removeGuard properNouns us os i j →
      backtrack properNouns us os i j =
        backtrack properNouns us os i (j - 1) ++ [⟨os.getD (j - 1) [], DiffType.remove⟩] ∧
      i + (j - 1) < i + j) ∧
    (¬matchGuard properNouns us os i j → ¬removeGuard properNouns us os i j →
      addGuard properNouns us os i j ∧
      backtrack properNouns us os i j =
        backtrack properNouns us os (i - 1) j ++ [⟨us.getD (i - 1) [], DiffType.add⟩] ∧
      (i - 1) + j < i + j) := by
  cases i with
  | zero =>
    cases j with
    | zero => omega
    | succ j =>
      refine ⟨Or.inr (Or.inl ⟨by omega, Or.inl rfl⟩), ?_, ?_, ?_, ?_⟩
      · rintro ⟨-, hadd⟩
        exact absurd hadd.1 (by omega)
      · intro hmg'
        exact absurd hmg'.1 (by omega)
      · intro _ _
        refine ⟨?_, by omega⟩
        simpa using backtrack_zero_succ properNouns us os j
      · intro _ hnr
        exact absurd ⟨by omega, Or.inl rfl⟩ hnr
  | succ i =>
    cases j with
    | zero =>
      refine ⟨Or.inr (Or.inr ⟨by omega, Or.inl rfl⟩), ?_, ?_, ?_, ?_⟩
      · rintro ⟨⟨h0, -⟩, -⟩
        exact absurd h0 (by omega)
      · intro hmg'
        exact absurd hmg'.2.1 (by omega)
      · intro _ hr
        exact absurd hr.1 (by omega)
      · intro _ _
        refine ⟨⟨by omega, Or.inl rfl⟩, ?_, by omega⟩
        simpa using backtrack_succ_zero properNouns us os i
    | succ j =>
      have hmg : matchGuard properNouns us os (i + 1) (j + 1) ↔
          isMatchWords properNouns (us.getD i []) (os.getD j []) = true := by
        simp [matchGuard]
      have hrg : removeGuard properNouns us os (i + 1) (j + 1) ↔
          dpTable properNouns us os i (j + 1) ≤ dpTable properNouns us os (i + 1) j := by
        simp [removeGuard]
      have hag : addGuard properNouns us os (i + 1) (j + 1) ↔
          dpTable properNouns us os (i + 1) j < dpTable properNouns us os i (j + 1) := by
        simp [addGuard]
      refine ⟨?_, ?_, ?_, ?_, ?_⟩
      · by_cases hm : isMatchWords properNouns (us.getD i []) (os.getD j []) = true
        · exact Or.inl (hmg.mpr hm)
        · by_cases hd : dpTable properNouns us os i (j + 1) ≤
              dpTable properNouns us os (i + 1) j
          · exact Or.inr (Or.inl (hrg.mpr hd))
          · exact Or.inr (Or.inr (hag.mpr (by omega)))
      · rintro ⟨hr, ha⟩
        rw [hrg] at hr
        rw [hag] at ha
        omega
      · intro hmg'
        have hm' := hmg.mp hmg'
        refine ⟨?_, by omega⟩
        rw [backtrack_succ_succ, if_pos hm']
        simp
      · intro hnm hrg'
        have hd' := hrg.mp hrg'
        have hm' : ¬isMatchWords properNouns (us.getD i []) (os.getD j []) = true :=
          fun hm => hnm (hmg.mpr hm)
        refine ⟨?_, by omega⟩
        rw [backtrack_succ_succ, if_neg hm', if_pos hd']
        simp
      · intro hnm hnr
        have hm' : ¬isMatchWords properNouns (us.getD i []) (os.getD j []) = true :=
          fun hm => hnm (hmg.mpr hm)
        have hd' : ¬dpTable properNouns us os i (j + 1) ≤
            dpTable properNouns us os (i + 1) j :=
          fun hd => hnr (hrg.mpr hd)
        refine ⟨hag.mpr (by omega), ?_, by omega⟩
        rw [backtrack_succ_succ, if_neg hm', if_neg hd']
        simp

theorem backtrack_step_total_witness :
    0 < 1 + 1 ∧ (matchGuard [] [['a']] [['b']] 1 1 ∨ removeGuard [] [['a']] [['b']] 1 1 ∨
      addGuard [] [['a']] [['b']] 1 1) :=
  ⟨by omega, (backtrack_step_total [] [['a']] [['b']] 1 1 (by omega)).1⟩

/-! ### Claim C10: the legacy two-argument `calculateDiff` -/

/-- DP table of the legacy two-argument `calculateDiff`: identical
recurrence, but the match condition is plain equality of cleaned words
(`u === o`), with no proper-noun branch. -/
def legacyDpFuel (us os : List Str) : Nat → Nat → Nat → Nat
  | 0, _, _ => 0
  | _ + 1, 0, _ => 0
  | _ + 1, _ + 1, 0 => 0
  | fuel + 1, i + 1, j + 1 =>
    if cleanWord (us.getD i []) = cleanWord (os.getD j []) then
      legacyDpFuel us os fuel i j + 1
    else
      max (legacyDpFuel us os fuel i (j + 1)) (legacyDpFuel us os fuel (i + 1) j)

/-- The legacy DP table `dp[i][j]`. -/
def legacyDpTable (us os : List Str) (i j : Nat) : Nat :=
  legacyDpFuel us os (i + j) i j

/-- Backtracking loop of the legacy two-argument `calculateDiff`. -/
def legacyBacktrackFuel (us os : List Str) : Nat → Nat → Nat → List DiffPart
  | 0, _, _ => []
  | _ + 1, 0, 0 => []
  | fuel + 1, 0, j + 1 =>
    legacyBacktrackFuel us os fuel 0 j ++ [⟨os.getD j [], DiffType.remove⟩]
  | fuel + 1, i + 1, 0 =>
    legacyBacktrackFuel us os fuel i 0 ++ [⟨us.getD i [], DiffType.add⟩]
  | fuel + 1, i + 1, j + 1 =>
    if cleanWord (us.getD i []) = cleanWord (os.getD j []) then
      legacyBacktrackFuel us os fuel i j ++ [⟨os.getD j [], DiffType.match_⟩]
    else if legacyDpTable us os i (j + 1) ≤ legacyDpTable us os (i + 1) j then
      legacyBacktrackFuel us os fuel (i + 1) j ++ [⟨os.getD j [], DiffType.remove⟩]
    else
      legacyBacktrackFuel us os fuel i (j + 1) ++ [⟨us.getD i [], DiffType.add⟩]

/-- The legacy backtracking walk. -/
def legacyBacktrack (us os : List Str) (i j : Nat) : List DiffPart :=
  legacyBacktrackFuel us os (i + j) i j

/-- Source `calculateDiff(userText, originalText)` — the legacy two-argument
version, including its identical punctuation post-processing. -/
def calculateDiffLegacy (userText originalText : Str) : List DiffPart :=
  let us := tokenize userText
  let os := tokenize originalText
  cleanupParts (legacyBacktrack us os us.length os.length)

theorem legacyDpFuel_eq (us os : List Str) :
    ∀ (f i j : Nat), legacyDpFuel us os f i j = dpFuel [] us os f i j := by
  intro f
  induction f with
  | zero => intro i j; rfl
  | succ f ih =>
    intro i j
    cases i with
    | zero => rfl
    | succ i =>
      cases j with
      | zero => rfl
      | succ j =>
        simp only [legacyDpFuel, dpFuel]
        by_cases he : cleanWord (us.getD i []) = cleanWord (os.getD j [])
        · rw [if_pos he, if_pos ((isMatchWords_nil_iff _ _).mpr he), ih]
        · rw [if_neg he, if_neg (fun hm => he ((isMatchWords_nil_iff _ _).mp hm)), ih, ih]

theorem legacyDpTable_eq (us os : List Str) (i j : Nat) :
    legacyDpTable us os i j = dpTable [] us os i j := by
  rw [legacyDpTable, dpTable, legacyDpFuel_eq]

theorem legacyBacktrackFuel_eq (us os : List Str) :
    ∀ (f i j : Nat), legacyBacktrackFuel us os f i j = backtrackFuel [] us os f i j := by
  intro f
  induction f with
  | zero => intro i j; rfl
  | succ f ih =>
    intro i j
    cases i with
    | zero =>
      cases j with
      | zero => rfl
      | succ j =>
        simp only [legacyBacktrackFuel, backtrackFuel]
        rw [ih]
    | succ i =>
      cases j with
      | zero =>
        simp only [legacyBacktrackFuel, backtrackFuel]
        rw [ih]
      | succ j =>
        simp only [legacyBacktrackFuel, backtrackFuel, legacyDpTable_eq]
        by_cases he : cleanWord (us.getD i []) = cleanWord (os.getD j [])
        · rw [if_pos he, if_pos ((isMatchWords_nil_iff _ _).mpr he), ih]
        · rw [if_neg he, if_neg (fun hm => he ((isMatchWords_nil_iff _ _).mp hm))]
          by_cases hd : dpTable [] us os i (j + 1) ≤ dpTable [] us os (i + 1) j
          · rw [if_pos hd, if_pos hd, ih]
          · rw [if_neg hd, if_neg hd, ih]

/-- C10: the legacy two-argument `calculateDiff` and the extended
three-argument `calculateDiff` applied to an empty proper-noun set
return identical diff sequences on every pair of input texts. -/
theorem calculateDiffLegacy_eq (userText originalText : Str) :
    calculateDiffLegacy userText originalText = calculateDiff userText originalText [] := by
  simp only [calculateDiffLegacy, calculateDiff, rawDiff, legacyBacktrack, backtrack,
    legacyBacktrackFuel_eq]

end Dictation